import Mathlib

/-!
Verification of the `sizr` directory-size scanner (`src/main.rs`).

The embedding models paths as lists of components (`Path := List String`);
the empty list plays the role of the empty path `""` that Rust's
`Path::parent` chain bottoms out at for relative paths.  The filesystem
walk produced by the `walkdir` crate is modelled as a list of events
(`WEntry`): a traversal error (which the source drops via
`filter_map(|e| e.ok())`), a directory entry, or a regular-file entry
carrying the result of its `fs::metadata(..).len()` read (`none` models a
failing metadata read).  `scan_directory`, the per-file upward
accumulation into `dir_sizes`, the second (directory) pass, the final
size-descending stable sort, the total-size computation of
`display_results`, the flag resolution of `main`, and `parse_size` are
translated from the source.
-/

namespace Sizr

abbrev Path := List String

/-- `Item` from the source: one sized, classified result record. -/
structure Item where
  path : Path
  size : Nat
  is_directory : Bool
deriving DecidableEq, Repr

/-- The `dir_sizes : HashMap<String, u64>` accumulator, modelled as an
association list from directory path to accumulated byte count. -/
abbrev SizeMap := List (Path × Nat)

/-- All proper prefixes of a path, shortest first.  The source's parent
chain (`entry_path.parent()` iterated until `None`, lines 123-127 of
`main.rs`) visits exactly these directories, longest first; `parentChain`
below reverses this list to follow the source's iteration order. -/
def properAncestors : Path → List Path
  | [] => []
  | a :: rest => [] :: (properAncestors rest).map (a :: ·)

/-- The chain of parent directories the first pass walks for a file at
path `p`: immediate parent first, ending at the empty path, exactly as
`while let Some(parent) = current_path` iterates in the source. -/
def parentChain (p : Path) : List Path :=
  (properAncestors p).reverse

/-- `*dir_sizes.entry(parent_str).or_insert(0) += size` (line 126):
bump the entry for key `k` by `sz`, inserting `sz` on first touch. -/
def addSize : SizeMap → Path → Nat → SizeMap
  | [], k, sz => [(k, sz)]
  | (k', v) :: rest, k, sz =>
      if k' = k then (k', v + sz) :: rest else (k', v) :: addSize rest k sz

/-- Run the `while` loop of lines 124-128: add `sz` to every directory in
the chain `ds`. -/
def addChain (m : SizeMap) (sz : Nat) : List Path → SizeMap
  | [] => m
  | d :: ds => addChain (addSize m d sz) sz ds

/-- `dir_sizes.get(&path_str).copied().unwrap_or(0)` (line 148): read a
directory's accumulated size, defaulting to 0 for an untouched key. -/
def lookupSize : SizeMap → Path → Nat
  | [], _ => 0
  | (k', v) :: rest, k => if k' = k then v else lookupSize rest k

/-- Whether the map holds an entry for key `k` at all (i.e. the key was
touched by the accumulation). -/
def hasKey : SizeMap → Path → Bool
  | [], _ => false
  | (k', _) :: rest, k => k' = k || hasKey rest k

/-- One event of a `WalkDir` traversal: a traversal-layer error (dropped
by `filter_map(|e| e.ok())`), a directory entry, or a regular-file entry
together with the outcome of reading its metadata (`none` models
`fs::metadata` failing for a path the traversal reported as a file). -/
inductive WEntry where
  | err : WEntry
  | dir (p : Path) : WEntry
  | file (p : Path) (meta : Option Nat) : WEntry
deriving DecidableEq, Repr

def pathString (p : Path) : String := String.intercalate "/" p

/-- The first pass of `scan_directory` (lines 114-139): iterate the walk
events, skip traversal errors and directories, and for each regular file
read its size (propagating a metadata failure as an error, line 118-120),
add it to every parent directory's total, and emit a File item when
`include_files && size >= min_size`. -/
def pass1 (include_files : Bool) (min_size : Nat) :
    List WEntry → List Item → SizeMap → Except String (List Item × SizeMap)
  | [], items, dir_sizes => .ok (items, dir_sizes)
  | WEntry.err :: rest, items, dir_sizes =>
      pass1 include_files min_size rest items dir_sizes
  | WEntry.dir _ :: rest, items, dir_sizes =>
      pass1 include_files min_size rest items dir_sizes
  | WEntry.file p none :: _, _, _ =>
      .error ("Failed to get metadata for " ++ pathString p)
  | WEntry.file p (some size) :: rest, items, dir_sizes =>
      pass1 include_files min_size rest
        (if include_files && decide (min_size ≤ size) then
          items ++ [⟨p, size, false⟩]
        else items)
        (addChain dir_sizes size (parentChain p))

/-- The items the first pass appends, in order (derived form of `pass1`
used to state its effect). -/
def pass1Items (include_files : Bool) (min_size : Nat) : List WEntry → List Item
  | [] => []
  | WEntry.file p (some size) :: rest =>
      (if include_files && decide (min_size ≤ size) then [⟨p, size, false⟩] else [])
        ++ pass1Items include_files min_size rest
  | _ :: rest => pass1Items include_files min_size rest

/-- The directory-size map the first pass builds (derived form of `pass1`
used to state its effect). -/
def pass1Map : List WEntry → SizeMap → SizeMap
  | [], m => m
  | WEntry.file p (some size) :: rest, m =>
      pass1Map rest (addChain m size (parentChain p))
  | _ :: rest, m => pass1Map rest m

/-- The second pass of `scan_directory` (lines 141-160): iterate the
`min_depth(1)` walk events, and for each directory look up its
accumulated size (default 0) and emit a Directory item when
`size >= min_size`. -/
def pass2 (min_size : Nat) (dir_sizes : SizeMap) : List WEntry → List Item → List Item
  | [], items => items
  | WEntry.dir p :: rest, items =>
      pass2 min_size dir_sizes rest
        (if decide (min_size ≤ lookupSize dir_sizes p) then
          items ++ [⟨p, lookupSize dir_sizes p, true⟩]
        else items)
  | _ :: rest, items => pass2 min_size dir_sizes rest items

/-- The items the second pass appends, in order (derived form of `pass2`). -/
def pass2Items (min_size : Nat) (dir_sizes : SizeMap) : List WEntry → List Item
  | [] => []
  | WEntry.dir p :: rest =>
      (if decide (min_size ≤ lookupSize dir_sizes p) then
        [⟨p, lookupSize dir_sizes p, true⟩]
      else [])
        ++ pass2Items min_size dir_sizes rest
  | _ :: rest => pass2Items min_size dir_sizes rest

/-- The comparison `|a, b| b.size.cmp(&a.size)` of line 163: `a` may stay
before `b` exactly when `b.size <= a.size`. -/
def sizeDescOrder (a b : Item) : Prop := b.size ≤ a.size

instance : DecidableRel sizeDescOrder := fun a b => Nat.decLe b.size a.size

instance : IsTotal Item sizeDescOrder := ⟨fun a b => Nat.le_total b.size a.size⟩

instance : IsTrans Item sizeDescOrder := ⟨fun _ _ _ h1 h2 => le_trans h2 h1⟩

/-- `items.sort_by(|a, b| b.size.cmp(&a.size))` (line 163): a stable sort
by size descending, modelled by a stable insertion sort. -/
def sort_by_size (items : List Item) : List Item :=
  List.insertionSort sizeDescOrder items

/-- `scan_directory` (lines 109-166) over the two walks' event lists:
first pass (may abort on a metadata failure), optional directory pass,
then the size-descending sort. -/
def scan_directory (ev1 ev2 : List WEntry) (include_files include_directories : Bool)
    (min_size : Nat) : Except String (List Item) :=
  match pass1 include_files min_size ev1 [] [] with
  | .error e => .error e
  | .ok (items, dir_sizes) =>
      .ok (sort_by_size
        (if include_directories then pass2 min_size dir_sizes ev2 items else items))

/-- The total of `display_results` (lines 195-199): sum the sizes of the
non-directory items only. -/
def total_size (items : List Item) : Nat :=
  ((items.filter fun i => !i.is_directory).map Item.size).sum

/-- The flag resolution of `main` (lines 73-79): `dirs_only` is tested
first; the pair is `(include_files, include_directories)`. -/
def include_flags (dirs_only files_only : Bool) : Bool × Bool :=
  if dirs_only then (false, true)
  else if files_only then (true, false)
  else (true, true)

/-! ### Filesystem trees and the `WalkDir` event streams they produce -/

mutual
/-- A filesystem subtree: a regular file with a byte size, or a
directory with a named list of children. -/
inductive FSTree where
  | file : Nat → FSTree
  | dir : FSForest → FSTree
/-- The children of a directory: an ordered list of (name, subtree). -/
inductive FSForest where
  | nil : FSForest
  | cons : String → FSTree → FSForest → FSForest
end

mutual
/-- The event stream of `WalkDir::new(p)` on tree `t` rooted at path `p`:
the root entry first, then the subtrees depth-first.  Metadata reads all
succeed (`some size`). -/
def walkEv (p : Path) : FSTree → List WEntry
  | FSTree.file size => [WEntry.file p (some size)]
  | FSTree.dir cs => WEntry.dir p :: walkEvList p cs
/-- The concatenated event streams of the children of a directory at `p`. -/
def walkEvList (p : Path) : FSForest → List WEntry
  | FSForest.nil => []
  | FSForest.cons name t rest => walkEv (p ++ [name]) t ++ walkEvList p rest
end

/-- The event stream of `WalkDir::new(p).min_depth(1)` (line 143): every
entry strictly below the root; the root entry itself is skipped. -/
def walkEvSub (p : Path) : FSTree → List WEntry
  | FSTree.file _ => []
  | FSTree.dir cs => walkEvList p cs

/-- `scan_directory` run on the walks of a concrete tree `t` rooted at
path `r`. -/
def scanTree (r : Path) (t : FSTree) (include_files include_directories : Bool)
    (min_size : Nat) : Except String (List Item) :=
  scan_directory (walkEv r t) (walkEvSub r t) include_files include_directories min_size

/-! ### Derived observers used to state the specification -/

/-- The sum of the sizes of the regular files (with a successful
metadata read) strictly beneath directory `D` in an event stream. -/
def fileSizeBeneath (D : Path) : List WEntry → Nat
  | [] => 0
  | WEntry.file q (some sz) :: rest =>
      (if D <+: q ∧ D ≠ q then sz else 0) + fileSizeBeneath D rest
  | _ :: rest => fileSizeBeneath D rest

/-- The sum of the sizes of the File items the first pass emits. -/
def sumFileEntries (include_files : Bool) (min_size : Nat) : List WEntry → Nat
  | [] => 0
  | WEntry.file _ (some sz) :: rest =>
      (if include_files && decide (min_size ≤ sz) then sz else 0)
        + sumFileEntries include_files min_size rest
  | _ :: rest => sumFileEntries include_files min_size rest

/-- Whether an `Except` result is an error. -/
def isErrorE {α : Type} : Except String α → Bool
  | .error _ => true
  | .ok _ => false

/-- Whether a walk event is a regular file whose metadata read fails. -/
def isMetaFailure : WEntry → Bool
  | WEntry.file _ none => true
  | _ => false

/-- Whether a walk event is a traversal-layer error (the `Err` case the
source drops with `filter_map(|e| e.ok())`). -/
def isTraversalErr : WEntry → Bool
  | WEntry.err => true
  | _ => false

/-- The event stream with the traversal-layer errors removed. -/
def removeErrs (evs : List WEntry) : List WEntry :=
  evs.filter fun e => !isTraversalErr e

/-- The path a walk event refers to, if any. -/
def evPath : WEntry → Option Path
  | WEntry.err => none
  | WEntry.dir p => some p
  | WEntry.file p _ => some p

/-! ### `parse_size` (lines 42-67)

The numeric part is parsed by Rust with `f64::from_str` and the result of
`number * multiplier as f64` is cast with `as u64` (saturating).  The
model keeps the value as an exact rational.  Because the number part is
split off at the first alphabetic character, no exponent/`inf`/`nan`
form can reach it, so `f64::from_str` only ever sees an optional sign,
digits and an optional fractional part, which `parseDecimal` models; the
rational model is exact for the integral magnitudes below `2^53` that
the theorems quantify over. -/

def digitsToNat (cs : List Char) : Nat :=
  cs.foldl (fun n c => 10 * n + (c.toNat - 48)) 0

/-- Model of `f64::from_str` on an alphabet-free string: optional sign,
then digits with an optional single `.` fractional part (at least one
digit overall), valued as an exact rational. -/
def parseDecimal (cs : List Char) : Option ℚ :=
  let sgn : ℚ := if cs.head? = some '-' then -1 else 1
  let rest := if cs.head? = some '-' ∨ cs.head? = some '+' then cs.tail else cs
  let ip := rest.takeWhile Char.isDigit
  let rest2 := rest.dropWhile Char.isDigit
  if rest2 = [] then
    if ip = [] then none else some (sgn * (digitsToNat ip : ℚ))
  else if rest2.head? = some '.' ∧ rest2.tail.all Char.isDigit
      ∧ (ip ≠ [] ∨ rest2.tail ≠ []) then
    some (sgn * ((digitsToNat ip : ℚ)
      + (digitsToNat rest2.tail : ℚ) / (10 : ℚ) ^ rest2.tail.length))
  else none

/-- The `match unit_part` of lines 57-64, upper-case unit to multiplier. -/
def recognizedUnit : List Char → Option Nat
  | [] => some 1
  | ['B'] => some 1
  | ['K', 'B'] => some 1024
  | ['M', 'B'] => some (1024 * 1024)
  | ['G', 'B'] => some (1024 * 1024 * 1024)
  | ['T', 'B'] => some (1024 * 1024 * 1024 * 1024)
  | _ => none

/-- Rust's saturating `as u64` cast on an exact rational: negative values
clamp to 0, values at least `2^64` clamp to `u64::MAX`, otherwise
truncate toward zero. -/
def f64ToU64 (q : ℚ) : Nat :=
  if q ≤ 0 then 0 else min (Int.toNat (Int.floor q)) (2 ^ 64 - 1)

/-- `parse_size` (lines 42-67): early-return for `"0"`, upper-case the
string, split at the first alphabetic character, parse the number part,
match the unit, and multiply. -/
def parse_size (s : String) : Except String Nat :=
  if s = "0" then .ok 0
  else
    let cs := s.toList.map Char.toUpper
    let number_part := cs.takeWhile fun c => !c.isAlpha
    let unit_part := cs.dropWhile fun c => !c.isAlpha
    match parseDecimal number_part with
    | none => .error ("Invalid number in size: " ++ String.mk number_part)
    | some q =>
        match recognizedUnit unit_part with
        | none => .error ("Unknown size unit: " ++ String.mk unit_part
            ++ ". Use B, KB, MB, GB, or TB")
        | some multiplier => .ok (f64ToU64 (q * (multiplier : ℚ)))

/-- The decimal digit characters. -/
def digitChars : List Char :=
  ['0', '1', '2', '3', '4', '5', '6', '7', '8', '9']

/-- The ASCII letters. -/
def alphaChars : List Char :=
  ['A', 'B', 'C', 'D', 'E', 'F', 'G', 'H', 'I', 'J', 'K', 'L', 'M',
   'N', 'O', 'P', 'Q', 'R', 'S', 'T', 'U', 'V', 'W', 'X', 'Y', 'Z',
   'a', 'b', 'c', 'd', 'e', 'f', 'g', 'h', 'i', 'j', 'k', 'l', 'm',
   'n', 'o', 'p', 'q', 'r', 's', 't', 'u', 'v', 'w', 'x', 'y', 'z']

/-- Every case variant of the five recognized unit suffixes (and the
empty suffix), with the binary multiplier each one denotes. -/
def unitTable : List (List Char × Nat) :=
  [([], 1),
   (['B'], 1), (['b'], 1),
   (['K', 'B'], 1024), (['K', 'b'], 1024), (['k', 'B'], 1024), (['k', 'b'], 1024),
   (['M', 'B'], 1048576), (['M', 'b'], 1048576),
   (['m', 'B'], 1048576), (['m', 'b'], 1048576),
   (['G', 'B'], 1073741824), (['G', 'b'], 1073741824),
   (['g', 'B'], 1073741824), (['g', 'b'], 1073741824),
   (['T', 'B'], 1099511627776), (['T', 'b'], 1099511627776),
   (['t', 'B'], 1099511627776), (['t', 'b'], 1099511627776)]

/-! ### Concrete sample data (used by the witness theorems) -/

/-- A sample tree: files `a` (100 bytes) and `s/b` (200 bytes), and an
empty directory `e`. -/
def sampleForest : FSForest :=
  FSForest.cons "a" (FSTree.file 100)
    (FSForest.cons "s" (FSTree.dir (FSForest.cons "b" (FSTree.file 200) FSForest.nil))
      (FSForest.cons "e" (FSTree.dir FSForest.nil) FSForest.nil))

def sampleTree : FSTree := FSTree.dir sampleForest

def sampleEv1 : List WEntry := walkEv ["r"] sampleTree

def sampleEv2 : List WEntry := walkEvSub ["r"] sampleTree

def sampleItems1 : List Item :=
  [⟨["r", "a"], 100, false⟩, ⟨["r", "s", "b"], 200, false⟩]

def sampleMap1 : SizeMap := [(["r"], 300), ([], 300), (["r", "s"], 200)]

def sampleSorted : List Item :=
  [⟨["r", "s", "b"], 200, false⟩, ⟨["r", "s"], 200, true⟩,
   ⟨["r", "a"], 100, false⟩, ⟨["r", "e"], 0, true⟩]

def sampleSortedFiles : List Item :=
  [⟨["r", "s", "b"], 200, false⟩, ⟨["r", "a"], 100, false⟩]

def sampleSortedDirs : List Item :=
  [⟨["r", "s"], 200, true⟩, ⟨["r", "e"], 0, true⟩]

def sampleSorted150 : List Item :=
  [⟨["r", "s", "b"], 200, false⟩, ⟨["r", "s"], 200, true⟩]

/-- A tree whose scan root `["a", "r"]` sits below another directory:
one file `f` of 5 bytes. -/
def cexTree : FSTree :=
  FSTree.dir (FSForest.cons "f" (FSTree.file 5) FSForest.nil)

def cexMap : SizeMap := [(["a", "r"], 5), (["a"], 5), ([], 5)]

def cexItems : List Item := [⟨["a", "r", "f"], 5, false⟩]

/-! ### Lemmas: the association-list accumulator -/

theorem lookupSize_addSize (m : SizeMap) (k D : Path) (sz : Nat) :
    lookupSize (addSize m k sz) D = lookupSize m D + (if D = k then sz else 0) := by
  induction m with
  | nil =>
      by_cases h : k = D
      · subst h; simp [addSize, lookupSize]
      · simp [addSize, lookupSize, h, Ne.symm h]
  | cons e rest ih =>
      obtain ⟨k', v⟩ := e
      by_cases hk : k' = k
      · subst hk
        by_cases h' : k' = D
        · subst h'; simp [addSize, lookupSize]
        · simp [addSize, lookupSize, h', Ne.symm h']
      · by_cases h' : k' = D
        · subst h'
          simp [addSize, lookupSize, hk]
        · simp [addSize, lookupSize, hk, h', ih]

theorem lookupSize_addChain (ds : List Path) (hnd : ds.Nodup) (m : SizeMap)
    (sz : Nat) (D : Path) :
    lookupSize (addChain m sz ds) D = lookupSize m D + (if D ∈ ds then sz else 0) := by
  induction ds generalizing m with
  | nil => simp [addChain]
  | cons d ds ih =>
      rw [List.nodup_cons] at hnd
      rw [addChain, ih hnd.2, lookupSize_addSize]
      by_cases h : D = d
      · subst h
        simp [hnd.1]
      · simp [h, Ne.symm h]

theorem hasKey_addSize (m : SizeMap) (k D : Path) (sz : Nat) :
    hasKey (addSize m k sz) D = (hasKey m D || decide (k = D)) := by
  induction m with
  | nil => simp [addSize, hasKey]
  | cons e rest ih =>
      obtain ⟨k', v⟩ := e
      by_cases hk : k' = k
      · by_cases h : k' = D <;> simp_all [addSize, hasKey]
      · simp_all [addSize, hasKey, Bool.or_assoc]

/-! ### Lemmas: the parent chain is exactly the proper ancestors -/

theorem mem_properAncestors {D p : Path} :
    D ∈ properAncestors p ↔ (D <+: p ∧ D ≠ p) := by
  induction p generalizing D with
  | nil => simp [properAncestors, List.prefix_nil]
  | cons a rest ih =>
      cases D with
      | nil => simp [properAncestors]
      | cons b D' =>
          simp only [properAncestors, List.mem_cons, List.mem_map, ih,
            List.cons_prefix_cons, ne_eq, List.cons.injEq, reduceCtorEq, false_or]
          constructor
          · rintro ⟨D'', ⟨hpre, hne⟩, rfl, rfl⟩
            exact ⟨⟨rfl, hpre⟩, fun h => hne h.2⟩
          · rintro ⟨⟨rfl, hpre⟩, hne⟩
            exact ⟨D', ⟨hpre, fun h => hne ⟨rfl, h⟩⟩, rfl, rfl⟩

theorem length_lt_of_mem_properAncestors {D p : Path} (h : D ∈ properAncestors p) :
    D.length < p.length := by
  obtain ⟨hpre, hne⟩ := mem_properAncestors.mp h
  rcases lt_or_eq_of_le hpre.length_le with hlt | heq
  · exact hlt
  · exact absurd (hpre.eq_of_length heq) hne

theorem nodup_properAncestors (p : Path) : (properAncestors p).Nodup := by
  induction p with
  | nil => simp [properAncestors]
  | cons a rest ih =>
      rw [properAncestors, List.nodup_cons]
      exact ⟨by simp, ih.map fun x y h => by simpa using h⟩

theorem nodup_parentChain (p : Path) : (parentChain p).Nodup := by
  rw [parentChain, List.nodup_reverse]; exact nodup_properAncestors p

theorem mem_parentChain {D q : Path} :
    D ∈ parentChain q ↔ (D <+: q ∧ D ≠ q) := by
  rw [parentChain, List.mem_reverse]; exact mem_properAncestors

/-! ### Lemmas: effect of the two passes -/

theorem lookupSize_pass1Map (evs : List WEntry) (m : SizeMap) (D : Path) :
    lookupSize (pass1Map evs m) D = lookupSize m D + fileSizeBeneath D evs := by
  induction evs generalizing m with
  | nil => simp [pass1Map, fileSizeBeneath]
  | cons e rest ih =>
      cases e with
      | err => simpa [pass1Map, fileSizeBeneath] using ih m
      | dir p => simpa [pass1Map, fileSizeBeneath] using ih m
      | file p meta =>
          cases meta with
          | none => simpa [pass1Map, fileSizeBeneath] using ih m
          | some sz =>
              rw [pass1Map, ih, lookupSize_addChain (parentChain p) (nodup_parentChain p),
                fileSizeBeneath]
              by_cases h : D <+: p ∧ D ≠ p
              · simp [mem_parentChain, h]; omega
              · simp [mem_parentChain, h]

theorem pass1_ok_eq {include_files : Bool} {min_size : Nat} {evs : List WEntry}
    {items its : List Item} {m m' : SizeMap}
    (h : pass1 include_files min_size evs items m = .ok (its, m')) :
    its = items ++ pass1Items include_files min_size evs ∧ m' = pass1Map evs m := by
  induction evs generalizing items m with
  | nil =>
      simp only [pass1] at h
      obtain ⟨h1, h2⟩ := Prod.mk.injEq .. ▸ (Except.ok.injEq _ _ ▸ h)
      simp [pass1Items, pass1Map, ← h1, ← h2]
  | cons e rest ih =>
      cases e with
      | err => simpa [pass1, pass1Items, pass1Map] using ih h
      | dir p => simpa [pass1, pass1Items, pass1Map] using ih h
      | file p meta =>
          cases meta with
          | none => simp [pass1] at h
          | some sz =>
              rw [pass1] at h
              obtain ⟨h1, h2⟩ := ih h
              refine ⟨?_, by simpa [pass1Map] using h2⟩
              rw [h1, pass1Items]
              by_cases hc : (include_files && decide (min_size ≤ sz)) = true <;>
                simp [hc]

theorem pass2_eq (min_size : Nat) (dir_sizes : SizeMap) (evs : List WEntry)
    (items : List Item) :
    pass2 min_size dir_sizes evs items = items ++ pass2Items min_size dir_sizes evs := by
  induction evs generalizing items with
  | nil => simp [pass2, pass2Items]
  | cons e rest ih =>
      cases e with
      | err => simp [pass2, pass2Items, ih]
      | file p meta => simp [pass2, pass2Items, ih]
      | dir p =>
          rw [pass2, pass2Items, ih]
          by_cases hc : decide (min_size ≤ lookupSize dir_sizes p) = true <;> simp [hc]

/-- Any successful scan returns exactly the sorted concatenation of the
first-pass items with the (optional) second-pass items. -/
theorem scan_ok_eq {ev1 ev2 : List WEntry} {include_files include_directories : Bool}
    {min_size : Nat} {l : List Item}
    (h : scan_directory ev1 ev2 include_files include_directories min_size = .ok l) :
    l = sort_by_size (pass1Items include_files min_size ev1 ++
          (if include_directories then
            pass2Items min_size (pass1Map ev1 []) ev2
          else [])) := by
  rw [scan_directory] at h
  rcases h1 : pass1 include_files min_size ev1 [] [] with e | ⟨its, m⟩
  · rw [h1] at h; simp at h
  · rw [h1] at h
    obtain ⟨hits, hm⟩ := pass1_ok_eq h1
    simp only [List.nil_append] at hits
    simp only [Except.ok.injEq] at h
    subst hits hm
    rw [← h]
    by_cases hd : include_directories <;> simp [hd, pass2_eq]

theorem mem_pass1Items {include_files : Bool} {min_size : Nat} {evs : List WEntry}
    {i : Item} :
    i ∈ pass1Items include_files min_size evs ↔
      ∃ q sz, WEntry.file q (some sz) ∈ evs ∧
        (include_files && decide (min_size ≤ sz)) = true ∧ i = ⟨q, sz, false⟩ := by
  induction evs with
  | nil => simp [pass1Items]
  | cons e rest ih =>
      cases e with
      | err => simp [pass1Items, ih]
      | dir p => simp [pass1Items, ih]
      | file p meta =>
          cases meta with
          | none => simp [pass1Items, ih]
          | some sz0 =>
              simp only [pass1Items]
              by_cases hc : (include_files && decide (min_size ≤ sz0)) = true
              · rw [if_pos hc]
                simp only [List.singleton_append, List.mem_cons, ih]
                constructor
                · rintro (rfl | ⟨q, sz, hmem, hcond, rfl⟩)
                  · exact ⟨p, sz0, Or.inl rfl, hc, rfl⟩
                  · exact ⟨q, sz, Or.inr hmem, hcond, rfl⟩
                · rintro ⟨q, sz, hmem | hmem, hcond, rfl⟩
                  · obtain ⟨rfl, rfl⟩ : q = p ∧ sz = sz0 := by
                      injection hmem with h1 h2
                      exact ⟨h1, Option.some.inj h2⟩
                    exact Or.inl rfl
                  · exact Or.inr ⟨q, sz, hmem, hcond, rfl⟩
              · rw [if_neg hc]
                simp only [List.nil_append, List.mem_cons, ih]
                constructor
                · rintro ⟨q, sz, hmem, hcond, rfl⟩
                  exact ⟨q, sz, Or.inr hmem, hcond, rfl⟩
                · rintro ⟨q, sz, hmem | hmem, hcond, rfl⟩
                  · obtain ⟨rfl, rfl⟩ : q = p ∧ sz = sz0 := by
                      injection hmem with h1 h2
                      exact ⟨h1, Option.some.inj h2⟩
                    exact absurd hcond hc
                  · exact ⟨q, sz, hmem, hcond, rfl⟩

theorem mem_pass2Items {min_size : Nat} {dir_sizes : SizeMap} {evs : List WEntry}
    {i : Item} :
    i ∈ pass2Items min_size dir_sizes evs ↔
      ∃ q, WEntry.dir q ∈ evs ∧
        decide (min_size ≤ lookupSize dir_sizes q) = true ∧
        i = ⟨q, lookupSize dir_sizes q, true⟩ := by
  induction evs with
  | nil => simp [pass2Items]
  | cons e rest ih =>
      cases e with
      | err => simp [pass2Items, ih]
      | file p meta => simp [pass2Items, ih]
      | dir p =>
          simp only [pass2Items]
          by_cases hc : decide (min_size ≤ lookupSize dir_sizes p) = true
          · rw [if_pos hc]
            simp only [List.singleton_append, List.mem_cons, ih]
            constructor
            · rintro (rfl | ⟨q, hmem, hcond, rfl⟩)
              · exact ⟨p, Or.inl rfl, hc, rfl⟩
              · exact ⟨q, Or.inr hmem, hcond, rfl⟩
            · rintro ⟨q, hmem | hmem, hcond, rfl⟩
              · obtain rfl : q = p := by injection hmem
                exact Or.inl rfl
              · exact Or.inr ⟨q, hmem, hcond, rfl⟩
          · rw [if_neg hc]
            simp only [List.nil_append, List.mem_cons, ih]
            constructor
            · rintro ⟨q, hmem, hcond, rfl⟩
              exact ⟨q, Or.inr hmem, hcond, rfl⟩
            · rintro ⟨q, hmem | hmem, hcond, rfl⟩
              · obtain rfl : q = p := by injection hmem
                exact absurd hcond hc
              · exact ⟨q, hmem, hcond, rfl⟩

theorem pass1Items_of_not_include (min_size : Nat) (evs : List WEntry) :
    pass1Items false min_size evs = [] := by
  induction evs with
  | nil => rfl
  | cons e rest ih => cases e with
      | err => simpa [pass1Items] using ih
      | dir p => simpa [pass1Items] using ih
      | file p meta => cases meta <;> simpa [pass1Items] using ih

/-! ### Lemmas: totals -/

theorem total_size_append (a b : List Item) :
    total_size (a ++ b) = total_size a + total_size b := by
  simp [total_size]

theorem total_size_nil : total_size [] = 0 := rfl

theorem total_size_singleton (x : Item) :
    total_size [x] = if x.is_directory = true then 0 else x.size := by
  by_cases h : x.is_directory = true <;> simp [total_size, h]

theorem total_size_perm {l₁ l₂ : List Item} (h : l₁.Perm l₂) :
    total_size l₁ = total_size l₂ :=
  ((h.filter _).map _).sum_eq

theorem total_size_pass1Items (include_files : Bool) (min_size : Nat)
    (evs : List WEntry) :
    total_size (pass1Items include_files min_size evs) =
      sumFileEntries include_files min_size evs := by
  induction evs with
  | nil => rfl
  | cons e rest ih =>
      cases e with
      | err => simpa [pass1Items, sumFileEntries] using ih
      | dir p => simpa [pass1Items, sumFileEntries] using ih
      | file p meta =>
          cases meta with
          | none => simpa [pass1Items, sumFileEntries] using ih
          | some sz =>
              simp only [pass1Items, sumFileEntries]
              by_cases hc : (include_files && decide (min_size ≤ sz)) = true
              · rw [if_pos hc, if_pos hc, total_size_append, total_size_singleton, ih]
                simp
              · rw [if_neg hc, if_neg hc, List.nil_append, ih, Nat.zero_add]

theorem total_size_pass2Items (min_size : Nat) (dir_sizes : SizeMap)
    (evs : List WEntry) :
    total_size (pass2Items min_size dir_sizes evs) = 0 := by
  induction evs with
  | nil => rfl
  | cons e rest ih =>
      cases e with
      | err => simpa [pass2Items] using ih
      | file p meta => simpa [pass2Items] using ih
      | dir p =>
          simp only [pass2Items]
          by_cases hc : decide (min_size ≤ lookupSize dir_sizes p) = true
          · rw [if_pos hc, total_size_append, total_size_singleton, ih]
            simp
          · rw [if_neg hc, List.nil_append, ih]

/-! ### Lemmas: errors -/

theorem pass1_isError (include_files : Bool) (min_size : Nat) (evs : List WEntry)
    (items : List Item) (m : SizeMap) :
    isErrorE (pass1 include_files min_size evs items m) = evs.any isMetaFailure := by
  induction evs generalizing items m with
  | nil => simp [pass1, isErrorE]
  | cons e rest ih =>
      cases e with
      | err => simpa [pass1, isMetaFailure] using ih items m
      | dir p => simpa [pass1, isMetaFailure] using ih items m
      | file p meta =>
          cases meta with
          | none => simp [pass1, isErrorE, isMetaFailure]
          | some sz => simpa [pass1, isMetaFailure] using ih _ _

theorem scan_isError (ev1 ev2 : List WEntry) (include_files include_directories : Bool)
    (min_size : Nat) :
    isErrorE (scan_directory ev1 ev2 include_files include_directories min_size)
      = ev1.any isMetaFailure := by
  rw [← pass1_isError include_files min_size ev1 [] [], scan_directory]
  rcases h : pass1 include_files min_size ev1 [] [] with e | ⟨its, m⟩ <;>
    simp [isErrorE]

theorem pass1_removeErrs (include_files : Bool) (min_size : Nat) (evs : List WEntry)
    (items : List Item) (m : SizeMap) :
    pass1 include_files min_size (removeErrs evs) items m
      = pass1 include_files min_size evs items m := by
  induction evs generalizing items m with
  | nil => rfl
  | cons e rest ih =>
      cases e with
      | err => simpa [removeErrs, List.filter_cons, isTraversalErr, pass1] using ih items m
      | dir p => simpa [removeErrs, List.filter_cons, isTraversalErr, pass1] using ih items m
      | file p meta =>
          cases meta with
          | none => simp [removeErrs, List.filter_cons, isTraversalErr, pass1]
          | some sz =>
              simpa [removeErrs, List.filter_cons, isTraversalErr, pass1] using ih _ _

theorem pass2_removeErrs (min_size : Nat) (dir_sizes : SizeMap) (evs : List WEntry)
    (items : List Item) :
    pass2 min_size dir_sizes (removeErrs evs) items = pass2 min_size dir_sizes evs items := by
  induction evs generalizing items with
  | nil => rfl
  | cons e rest ih =>
      cases e with
      | err => simpa [removeErrs, List.filter_cons, isTraversalErr, pass2] using ih items
      | dir p => simpa [removeErrs, List.filter_cons, isTraversalErr, pass2] using ih _
      | file p meta => simpa [removeErrs, List.filter_cons, isTraversalErr, pass2] using ih items

theorem scan_removeErrs (ev1 ev2 : List WEntry) (include_files include_directories : Bool)
    (min_size : Nat) :
    scan_directory (removeErrs ev1) (removeErrs ev2) include_files include_directories min_size
      = scan_directory ev1 ev2 include_files include_directories min_size := by
  rw [scan_directory, scan_directory, pass1_removeErrs]
  rcases h : pass1 include_files min_size ev1 [] [] with e | ⟨its, m⟩
  · rfl
  · simp [pass2_removeErrs]

/-! ### Lemmas: walks of trees -/

mutual
theorem walkEv_path_le (p : Path) (t : FSTree) :
    ∀ e ∈ walkEv p t, ∀ q, evPath e = some q → p.length ≤ q.length := by
  intro e he q hq
  cases t with
  | file sz =>
      rw [walkEv, List.mem_singleton] at he
      subst he
      simp only [evPath, Option.some.injEq] at hq
      exact hq ▸ le_refl _
  | dir cs =>
      rw [walkEv] at he
      rcases List.mem_cons.mp he with rfl | he'
      · simp only [evPath, Option.some.injEq] at hq
        exact hq ▸ le_refl _
      · exact le_of_lt (walkEvList_path_lt p cs e he' q hq)
theorem walkEvList_path_lt (p : Path) (cs : FSForest) :
    ∀ e ∈ walkEvList p cs, ∀ q, evPath e = some q → p.length < q.length := by
  intro e he q hq
  cases cs with
  | nil => rw [walkEvList] at he; exact absurd he (List.not_mem_nil e)
  | cons name t rest =>
      rw [walkEvList] at he
      rcases List.mem_append.mp he with h1 | h2
      · have hle := walkEv_path_le (p ++ [name]) t e h1 q hq
        have : p.length < (p ++ [name]).length := by simp
        exact lt_of_lt_of_le this hle
      · exact walkEvList_path_lt p rest e h2 q hq
end

mutual
theorem walkEv_no_meta (p : Path) (t : FSTree) :
    ∀ e ∈ walkEv p t, isMetaFailure e = false := by
  intro e he
  cases t with
  | file sz =>
      rw [walkEv, List.mem_singleton] at he
      subst he
      rfl
  | dir cs =>
      rw [walkEv] at he
      rcases List.mem_cons.mp he with rfl | he'
      · rfl
      · exact walkEvList_no_meta p cs e he'
theorem walkEvList_no_meta (p : Path) (cs : FSForest) :
    ∀ e ∈ walkEvList p cs, isMetaFailure e = false := by
  intro e he
  cases cs with
  | nil => rw [walkEvList] at he; exact absurd he (List.not_mem_nil e)
  | cons name t rest =>
      rw [walkEvList] at he
      rcases List.mem_append.mp he with h1 | h2
      · exact walkEv_no_meta (p ++ [name]) t e h1
      · exact walkEvList_no_meta p rest e h2
end

/-! ### Lemmas: `parse_size` -/

theorem digit_char_facts {c : Char} (hc : c ∈ digitChars) :
    c.toUpper = c ∧ c.isAlpha = false ∧ c.isDigit = true
      ∧ c ≠ '-' ∧ c ≠ '+' := by
  fin_cases hc <;> refine ⟨by decide, by decide, by decide, by decide, by decide⟩

theorem alpha_char_toUpper_isAlpha {c : Char} (hc : c ∈ alphaChars) :
    (c.toUpper).isAlpha = true := by
  fin_cases hc <;> decide

theorem takeWhile_of_forall {α : Type} {p : α → Bool} {l : List α}
    (h : ∀ c ∈ l, p c = true) : l.takeWhile p = l := by
  induction l with
  | nil => rfl
  | cons a l ih =>
      have ha := h a (List.mem_cons_self a l)
      simp [List.takeWhile_cons, ha, ih fun c hc => h c (List.mem_cons_of_mem a hc)]

theorem dropWhile_of_forall {α : Type} {p : α → Bool} {l : List α}
    (h : ∀ c ∈ l, p c = true) : l.dropWhile p = [] := by
  induction l with
  | nil => rfl
  | cons a l ih =>
      have ha := h a (List.mem_cons_self a l)
      simp [List.dropWhile_cons, ha, ih fun c hc => h c (List.mem_cons_of_mem a hc)]

theorem takeWhile_append_of_forall {α : Type} {p : α → Bool} {l₁ l₂ : List α}
    (h : ∀ c ∈ l₁, p c = true) :
    (l₁ ++ l₂).takeWhile p = l₁ ++ l₂.takeWhile p := by
  induction l₁ with
  | nil => simp
  | cons a l ih =>
      have ha := h a (List.mem_cons_self a l)
      simp [List.takeWhile_cons, ha, ih fun c hc => h c (List.mem_cons_of_mem a hc)]

theorem dropWhile_append_of_forall {α : Type} {p : α → Bool} {l₁ l₂ : List α}
    (h : ∀ c ∈ l₁, p c = true) :
    (l₁ ++ l₂).dropWhile p = l₂.dropWhile p := by
  induction l₁ with
  | nil => simp
  | cons a l ih =>
      have ha := h a (List.mem_cons_self a l)
      simp [List.dropWhile_cons, ha, ih fun c hc => h c (List.mem_cons_of_mem a hc)]

theorem parseDecimal_digits (ds : List Char) (hds : ds ≠ [])
    (hd : ∀ c ∈ ds, c ∈ digitChars) :
    parseDecimal ds = some ((digitsToNat ds : ℚ)) := by
  obtain ⟨a, ds', rfl⟩ := List.exists_cons_of_ne_nil hds
  have ha := digit_char_facts (hd a (List.mem_cons_self a ds'))
  have hdig : ∀ c ∈ a :: ds', c.isDigit = true :=
    fun c hc => (digit_char_facts (hd c hc)).2.2.1
  have htw : (a :: ds').takeWhile Char.isDigit = a :: ds' := takeWhile_of_forall hdig
  have hdw : (a :: ds').dropWhile Char.isDigit = [] := dropWhile_of_forall hdig
  simp [parseDecimal, ha.2.2.2.1, ha.2.2.2.2, htw, hdw]

theorem split_parts (ds us : List Char) (hd : ∀ c ∈ ds, c ∈ digitChars)
    (hus : ∀ c ∈ us, (Char.toUpper c).isAlpha = true) :
    ((ds ++ us).map Char.toUpper).takeWhile (fun c => !c.isAlpha) = ds ∧
    ((ds ++ us).map Char.toUpper).dropWhile (fun c => !c.isAlpha) = us.map Char.toUpper := by
  have hmap : (ds ++ us).map Char.toUpper = ds ++ us.map Char.toUpper := by
    rw [List.map_append,
      List.map_congr_left fun c hc => (digit_char_facts (hd c hc)).1]
    simp
  have hda : ∀ c ∈ ds, (!c.isAlpha) = true := fun c hc => by
    rw [(digit_char_facts (hd c hc)).2.1]; rfl
  constructor
  · rw [hmap, takeWhile_append_of_forall hda]
    cases us with
    | nil => simp
    | cons u us' =>
        rw [List.map_cons, List.takeWhile_cons, hus u (List.mem_cons_self u us')]
        simp
  · rw [hmap, dropWhile_append_of_forall hda]
    cases us with
    | nil => simp
    | cons u us' =>
        rw [List.map_cons, List.dropWhile_cons, hus u (List.mem_cons_self u us')]
        simp

theorem f64ToU64_natCast (k : Nat) (hk : k < 2 ^ 64) :
    f64ToU64 ((k : ℚ)) = k := by
  rw [f64ToU64]
  by_cases h : (k : ℚ) ≤ 0
  · rw [if_pos h]
    have hk0 : k = 0 := Nat.cast_nonpos.mp h
    omega
  · rw [if_neg h, Int.floor_natCast, Int.toNat_natCast]
    omega

theorem parse_size_unit_ok (ds u : List Char) (mult : Nat) (hds : ds ≠ [])
    (hd : ∀ c ∈ ds, c ∈ digitChars)
    (hus : ∀ c ∈ u, (Char.toUpper c).isAlpha = true)
    (hru : recognizedUnit (u.map Char.toUpper) = some mult)
    (hbound : digitsToNat ds * mult < 2 ^ 64) :
    parse_size (String.mk (ds ++ u)) = .ok (digitsToNat ds * mult) := by
  by_cases h0 : String.mk (ds ++ u) = "0"
  · have hlist : ds ++ u = ['0'] := by
      simpa using congrArg String.data h0
    obtain ⟨a, ds', rfl⟩ := List.exists_cons_of_ne_nil hds
    rw [List.cons_append] at hlist
    have ha : a = '0' := (List.cons.injEq ..).mp hlist |>.1
    have htail : ds' ++ u = [] := (List.cons.injEq ..).mp hlist |>.2
    obtain ⟨hds', hu'⟩ := List.append_eq_nil.mp htail
    subst ha hds' hu'
    have hm : mult = 1 := by
      simpa [recognizedUnit] using hru.symm
    subst hm
    rfl
  · unfold parse_size
    rw [if_neg h0]
    have ht : (String.mk (ds ++ u)).toList = ds ++ u := rfl
    obtain ⟨hs1, hs2⟩ := split_parts ds u hd hus
    simp only [ht, hs1, hs2, parseDecimal_digits ds hds hd, hru]
    rw [show ((digitsToNat ds : ℚ)) * ((mult : Nat) : ℚ)
          = (((digitsToNat ds * mult : Nat)) : ℚ) by push_cast; ring]
    rw [f64ToU64_natCast _ hbound]

theorem parse_size_unit_err (ds us : List Char) (hds : ds ≠ [])
    (hd : ∀ c ∈ ds, c ∈ digitChars) (hus0 : us ≠ [])
    (hus : ∀ c ∈ us, (Char.toUpper c).isAlpha = true)
    (hru : recognizedUnit (us.map Char.toUpper) = none) :
    parse_size (String.mk (ds ++ us)) =
      .error ("Unknown size unit: " ++ String.mk (us.map Char.toUpper)
        ++ ". Use B, KB, MB, GB, or TB") := by
  have h0 : String.mk (ds ++ us) ≠ "0" := by
    intro h
    have hlist : ds ++ us = ['0'] := by
      simpa using congrArg String.data h
    have hlen := congrArg List.length hlist
    simp only [List.length_append, List.length_cons, List.length_nil] at hlen
    cases ds with
    | nil => exact hds rfl
    | cons a ds' =>
        cases us with
        | nil => exact hus0 rfl
        | cons b us' => simp only [List.length_cons] at hlen; omega
  unfold parse_size
  rw [if_neg h0]
  have ht : (String.mk (ds ++ us)).toList = ds ++ us := rfl
  obtain ⟨hs1, hs2⟩ := split_parts ds us hd hus
  simp only [ht, hs1, hs2, parseDecimal_digits ds hds hd, hru]

/-! ### Lemmas: the sort -/

theorem sort_by_size_perm (l : List Item) : (sort_by_size l).Perm l :=
  List.perm_insertionSort _ _

theorem mem_sort_by_size {i : Item} {l : List Item} :
    i ∈ sort_by_size l ↔ i ∈ l :=
  (sort_by_size_perm l).mem_iff

theorem total_size_sort (l : List Item) : total_size (sort_by_size l) = total_size l :=
  total_size_perm (sort_by_size_perm l)

/-! ### The claims -/

/-- C1: after the first pass of `scan_directory` completes, for every
directory `D` strictly under the scan root (i.e. appearing in the
`min_depth(1)` walk), the directory-size-map value for `D` — read with
the `unwrap_or(0)` default exactly as the directory pass reads it —
equals the exact sum of the sizes of the regular files transitively
beneath `D` within the scanned subtree; a directory with no files
beneath it therefore has accumulated size 0, for any tree shape. -/
theorem dir_size_map_invariant (r : Path) (t : FSTree) (include_files : Bool)
    (min_size : Nat) (its : List Item) (m : SizeMap) (D : Path)
    (h : pass1 include_files min_size (walkEv r t) [] [] = .ok (its, m))
    (_hD : WEntry.dir D ∈ walkEvSub r t) :
    lookupSize m D = fileSizeBeneath D (walkEv r t) := by
  obtain ⟨-, hm⟩ := pass1_ok_eq h
  subst hm
  rw [lookupSize_pass1Map]
  simp [lookupSize]

theorem dir_size_map_invariant_witness :
    pass1 true 0 (walkEv ["r"] sampleTree) [] [] = .ok (sampleItems1, sampleMap1) ∧
    WEntry.dir ["r", "e"] ∈ walkEvSub ["r"] sampleTree ∧
    lookupSize sampleMap1 ["r", "e"] = fileSizeBeneath ["r", "e"] (walkEv ["r"] sampleTree) :=
  ⟨rfl, by decide,
   dir_size_map_invariant ["r"] sampleTree true 0 sampleItems1 sampleMap1 ["r", "e"]
     rfl (by decide)⟩

/-- C2 counterexample: scanning `cexTree` rooted at `["a", "r"]`, the
first pass creates an entry for the scan root's parent `["a"]` in the
directory-size map — the upward walk does not stop at the scan root,
refuting the claim that the root's parent is never touched. -/
theorem upward_walk_touches_root_parent :
    pass1 true 0 (walkEv ["a", "r"] cexTree) [] [] = .ok (cexItems, cexMap) ∧
    hasKey cexMap ["a"] = true :=
  ⟨rfl, rfl⟩

/-- C2 amended: the upward walk adds each file's size to every proper
ancestor of the file's path — the scan root receives the file's size,
but the walk does not stop there: for every path `D`, including the
scan root's parent and every path above it, the accumulated total
equals the sum of the files strictly beneath `D` (so any ancestor above
the root with a file beneath it is touched as well; those extra keys
are never read, since the directory pass visits only directories
strictly below the root). -/
theorem upward_walk_all_ancestors (r : Path) (t : FSTree) (include_files : Bool)
    (min_size : Nat) (its : List Item) (m : SizeMap)
    (h : pass1 include_files min_size (walkEv r t) [] [] = .ok (its, m)) :
    ∀ D : Path, lookupSize m D = fileSizeBeneath D (walkEv r t) := by
  intro D
  obtain ⟨-, hm⟩ := pass1_ok_eq h
  subst hm
  rw [lookupSize_pass1Map]
  simp [lookupSize]

theorem upward_walk_all_ancestors_witness :
    lookupSize cexMap ["a"] = fileSizeBeneath ["a"] (walkEv ["a", "r"] cexTree) :=
  upward_walk_all_ancestors ["a", "r"] cexTree true 0 cexItems cexMap rfl ["a"]

/-- C3: the reported total counts File-kind entries only (Policy B): for
any successful scan it equals the walk's included-file size sum — an
expression in which no directory occurs — and coincides with the total
of the same first pass run with directories excluded, so displayed
Directory entries never inflate the total. -/
theorem total_counts_only_files (ev1 ev2 ev2' : List WEntry)
    (include_files include_directories : Bool) (min_size : Nat) (l l' : List Item)
    (h : scan_directory ev1 ev2 include_files include_directories min_size = .ok l)
    (h' : scan_directory ev1 ev2' include_files false min_size = .ok l') :
    total_size l = sumFileEntries include_files min_size ev1 ∧
    total_size l = total_size l' := by
  have key : ∀ (b : Bool) (ev : List WEntry) (L : List Item),
      L = sort_by_size (pass1Items include_files min_size ev1 ++
        (if b then pass2Items min_size (pass1Map ev1 []) ev else [])) →
      total_size L = sumFileEntries include_files min_size ev1 := by
    intro b ev L hL
    rw [hL, total_size_sort, total_size_append, total_size_pass1Items]
    cases b <;> simp [total_size_pass2Items, total_size_nil]
  have e1 := key include_directories ev2 l (scan_ok_eq h)
  have e2 := key false ev2' l' (scan_ok_eq h')
  exact ⟨e1, by rw [e1, e2]⟩

theorem total_counts_only_files_witness :
    total_size sampleSorted = sumFileEntries true 0 sampleEv1 ∧
    total_size sampleSorted = total_size sampleSortedFiles :=
  total_counts_only_files sampleEv1 sampleEv2 sampleEv2 true true 0
    sampleSorted sampleSortedFiles rfl rfl

/-- C4: `scan_directory` returns an error exactly when the first-pass
walk reports a regular file whose metadata read fails; traversal-layer
error events never abort the scan — removing them from both walks
leaves the result unchanged, so they are silently dropped and never
surfaced. -/
theorem scan_error_iff_metadata_failure (ev1 ev2 : List WEntry)
    (include_files include_directories : Bool) (min_size : Nat) :
    isErrorE (scan_directory ev1 ev2 include_files include_directories min_size)
        = ev1.any isMetaFailure ∧
    scan_directory (removeErrs ev1) (removeErrs ev2) include_files
        include_directories min_size
      = scan_directory ev1 ev2 include_files include_directories min_size :=
  ⟨scan_isError ev1 ev2 include_files include_directories min_size,
   scan_removeErrs ev1 ev2 include_files include_directories min_size⟩

/-- C5: `parse_size` maps `"0"` to 0, `"500KB"` to 512000, `"2GB"` to
2147483648, `"10"` to 10 and fails on `"5XB"`; in general a digit-string
magnitude with any case variant of a suffix in B, KB, MB, GB, TB (or no
suffix, meaning bytes) yields the magnitude times the binary multiplier
— stated for magnitudes below `2^53` (where the `f64` arithmetic the
source uses is exact) whose product stays below `2^64` (where the
saturating cast is the identity) — and any other alphabetic suffix is a
parse error. -/
theorem parse_size_spec :
    parse_size "0" = .ok 0 ∧
    parse_size "500KB" = .ok 512000 ∧
    parse_size "2GB" = .ok 2147483648 ∧
    parse_size "10" = .ok 10 ∧
    parse_size "5XB" = .error "Unknown size unit: XB. Use B, KB, MB, GB, or TB" ∧
    (∀ ds u mult, (u, mult) ∈ unitTable → ds ≠ [] →
      (∀ c ∈ ds, c ∈ digitChars) → digitsToNat ds < 2 ^ 53 →
      digitsToNat ds * mult < 2 ^ 64 →
      parse_size (String.mk (ds ++ u)) = .ok (digitsToNat ds * mult)) ∧
    (∀ ds us, ds ≠ [] → (∀ c ∈ ds, c ∈ digitChars) → us ≠ [] →
      (∀ c ∈ us, c ∈ alphaChars) →
      recognizedUnit (us.map Char.toUpper) = none →
      parse_size (String.mk (ds ++ us)) =
        .error ("Unknown size unit: " ++ String.mk (us.map Char.toUpper)
          ++ ". Use B, KB, MB, GB, or TB")) := by
  refine ⟨rfl, ?_, ?_, ?_, ?_, ?_, ?_⟩
  · rw [show ("500KB" : String) = String.mk (['5', '0', '0'] ++ ['K', 'B']) from rfl,
      parse_size_unit_ok ['5', '0', '0'] ['K', 'B'] 1024 (by decide) (by decide)
        (by decide) (by decide) (by decide)]
    rfl
  · rw [show ("2GB" : String) = String.mk (['2'] ++ ['G', 'B']) from rfl,
      parse_size_unit_ok ['2'] ['G', 'B'] 1073741824 (by decide) (by decide)
        (by decide) (by decide) (by decide)]
    rfl
  · rw [show ("10" : String) = String.mk (['1', '0'] ++ []) from rfl,
      parse_size_unit_ok ['1', '0'] [] 1 (by decide) (by decide)
        (by decide) (by decide) (by decide)]
    rfl
  · rw [show ("5XB" : String) = String.mk (['5'] ++ ['X', 'B']) from rfl,
      parse_size_unit_err ['5'] ['X', 'B'] (by decide) (by decide)
        (by decide) (by decide) (by decide)]
    rfl
  · intro ds u mult hmem hds hd h53 h64
    fin_cases hmem <;>
      exact parse_size_unit_ok _ _ _ hds hd (by decide) (by decide) h64
  · intro ds us hds hd hus0 hus hru
    exact parse_size_unit_err ds us hds hd hus0
      (fun c hc => alpha_char_toUpper_isAlpha (hus c hc)) hru

theorem parse_size_spec_witness :
    (['5'] : List Char) ≠ [] ∧
    parse_size (String.mk (['5'] ++ ['k', 'b'])) = .ok (digitsToNat ['5'] * 1024) :=
  ⟨by decide,
   parse_size_spec.2.2.2.2.2.1 ['5'] ['k', 'b'] 1024 (by decide) (by decide)
     (by decide) (by decide) (by decide)⟩

/-- C6: the minimum-size threshold is the same inclusive comparison for
files and directories: every returned entry has `min_size ≤ size`;
conversely (when the respective kind is included) every file event
meeting the threshold and every directory event whose accumulated size
meets the threshold yields an entry in the result — so a candidate can
be excluded by the threshold alone only when its size is strictly below
it. -/
theorem min_size_threshold_spec (ev1 ev2 : List WEntry)
    (include_files include_directories : Bool) (min_size : Nat) (l : List Item)
    (h : scan_directory ev1 ev2 include_files include_directories min_size = .ok l) :
    (∀ i ∈ l, min_size ≤ i.size) ∧
    (include_files = true → ∀ q sz, WEntry.file q (some sz) ∈ ev1 → min_size ≤ sz →
      (⟨q, sz, false⟩ : Item) ∈ l) ∧
    (include_directories = true → ∀ q, WEntry.dir q ∈ ev2 →
      min_size ≤ lookupSize (pass1Map ev1 []) q →
      (⟨q, lookupSize (pass1Map ev1 []) q, true⟩ : Item) ∈ l) := by
  have e := scan_ok_eq h
  subst e
  refine ⟨?_, ?_, ?_⟩
  · intro i hi
    rw [mem_sort_by_size, List.mem_append] at hi
    rcases hi with h1 | h2
    · obtain ⟨q, sz, hmem, hcond, rfl⟩ := mem_pass1Items.mp h1
      simp only [Bool.and_eq_true, decide_eq_true_eq] at hcond
      exact hcond.2
    · cases include_directories with
      | false => simp at h2
      | true =>
          simp only [if_true] at h2
          obtain ⟨q, hmem, hcond, rfl⟩ := mem_pass2Items.mp h2
          simpa using hcond
  · intro hf q sz hmem hsz
    rw [mem_sort_by_size, List.mem_append]
    exact Or.inl (mem_pass1Items.mpr ⟨q, sz, hmem, by simp [hf, hsz], rfl⟩)
  · intro hd q hmem hsz
    rw [mem_sort_by_size, List.mem_append]
    refine Or.inr ?_
    rw [if_pos hd]
    exact mem_pass2Items.mpr ⟨q, hmem, by simp [hsz], rfl⟩

theorem min_size_threshold_spec_witness :
    (∀ i ∈ sampleSorted150, 150 ≤ i.size) ∧
    (true = true → ∀ q sz, WEntry.file q (some sz) ∈ sampleEv1 → 150 ≤ sz →
      (⟨q, sz, false⟩ : Item) ∈ sampleSorted150) ∧
    (true = true → ∀ q, WEntry.dir q ∈ sampleEv2 →
      150 ≤ lookupSize (pass1Map sampleEv1 []) q →
      (⟨q, lookupSize (pass1Map sampleEv1 []) q, true⟩ : Item) ∈ sampleSorted150) :=
  min_size_threshold_spec sampleEv1 sampleEv2 true true 150 sampleSorted150 rfl

/-- C7: the list returned by every successful `scan_directory` call is
sorted by size descending; in particular every adjacent pair `(a, b)`
satisfies `b.size ≤ a.size`. -/
theorem scan_result_sorted_desc (ev1 ev2 : List WEntry)
    (include_files include_directories : Bool) (min_size : Nat) (l : List Item)
    (h : scan_directory ev1 ev2 include_files include_directories min_size = .ok l) :
    List.Pairwise sizeDescOrder l ∧ List.Chain' sizeDescOrder l := by
  have e := scan_ok_eq h
  subst e
  have hs := List.sorted_insertionSort sizeDescOrder
    (pass1Items include_files min_size ev1 ++
      (if include_directories then pass2Items min_size (pass1Map ev1 []) ev2 else []))
  exact ⟨hs, List.Pairwise.chain' hs⟩

theorem scan_result_sorted_desc_witness :
    List.Pairwise sizeDescOrder sampleSorted ∧ List.Chain' sizeDescOrder sampleSorted :=
  scan_result_sorted_desc sampleEv1 sampleEv2 true true 0 sampleSorted rfl

/-- C8: with inclusion mode files-only (`include_directories = false`),
every successful scan returns zero Directory-kind entries. -/
theorem files_only_no_directories (ev1 ev2 : List WEntry) (min_size : Nat)
    (l : List Item)
    (h : scan_directory ev1 ev2 true false min_size = .ok l) :
    ∀ i ∈ l, i.is_directory = false := by
  have e := scan_ok_eq h
  subst e
  intro i hi
  rw [mem_sort_by_size, List.mem_append] at hi
  rcases hi with h1 | h2
  · obtain ⟨q, sz, -, -, rfl⟩ := mem_pass1Items.mp h1
    rfl
  · simp at h2

theorem files_only_no_directories_witness :
    (⟨["r", "s", "b"], 200, false⟩ : Item) ∈ sampleSortedFiles ∧
    (⟨["r", "s", "b"], 200, false⟩ : Item).is_directory = false :=
  ⟨by decide,
   files_only_no_directories sampleEv1 sampleEv2 0 sampleSortedFiles rfl _ (by decide)⟩

/-- C9 counterexample: when the scan root is itself a regular file, the
scan emits an entry whose path equals the scan root — refuting the
claim that no returned entry's path ever equals the scan root. -/
theorem file_root_emitted_as_entry :
    scanTree ["root"] (FSTree.file 5) true true 0 = .ok [⟨["root"], 5, false⟩] ∧
    (Item.mk ["root"] 5 false).path = ["root"] :=
  ⟨rfl, rfl⟩

/-- C9 amended: for every scan whose root is a directory, no returned
entry's path equals the scan root: first-pass file entries lie strictly
below the root and the `min_depth(1)` directory pass visits only
directories strictly below the root.  (When the scan root is itself a
regular file, the root is emitted as a File-kind entry.) -/
theorem dir_root_never_emitted (r : Path) (cs : FSForest)
    (include_files include_directories : Bool) (min_size : Nat) (l : List Item)
    (h : scanTree r (FSTree.dir cs) include_files include_directories min_size = .ok l) :
    ∀ i ∈ l, i.path ≠ r := by
  rw [scanTree] at h
  have e := scan_ok_eq h
  subst e
  intro i hi
  rw [mem_sort_by_size, List.mem_append] at hi
  rcases hi with h1 | h2
  · obtain ⟨q, sz, hmem, -, rfl⟩ := mem_pass1Items.mp h1
    rw [walkEv, List.mem_cons] at hmem
    rcases hmem with habs | hmem
    · exact absurd habs (by simp)
    · have hlt := walkEvList_path_lt r cs _ hmem q rfl
      intro hqr
      rw [show (Item.mk q sz false).path = q from rfl] at hqr
      subst hqr
      exact absurd hlt (lt_irrefl _)
  · cases include_directories with
    | false => simp at h2
    | true =>
        simp only [if_true] at h2
        obtain ⟨q, hmem, -, rfl⟩ := mem_pass2Items.mp h2
        rw [walkEvSub] at hmem
        have hlt := walkEvList_path_lt r cs _ hmem q rfl
        intro hqr
        rw [show (Item.mk q (lookupSize (pass1Map (walkEv r (FSTree.dir cs)) []) q)
              true).path = q from rfl] at hqr
        subst hqr
        exact absurd hlt (lt_irrefl _)

theorem dir_root_never_emitted_witness :
    (⟨["r", "s", "b"], 200, false⟩ : Item) ∈ sampleSorted ∧
    (⟨["r", "s", "b"], 200, false⟩ : Item).path ≠ ["r"] :=
  ⟨by decide,
   dir_root_never_emitted ["r"] sampleForest true true 0 sampleSorted rfl _ (by decide)⟩

/-- C10: when both `dirs_only` and `files_only` are set, `dirs_only` is
tested first and wins: the flags resolve to `(include_files,
include_directories) = (false, true)`, and any successful scan with the
resolved flags returns only Directory-kind entries. -/
theorem both_flags_dirs_only_wins :
    include_flags true true = (false, true) ∧
    ∀ ev1 ev2 min_size l,
      scan_directory ev1 ev2 (include_flags true true).1 (include_flags true true).2
          min_size = .ok l →
      ∀ i ∈ l, i.is_directory = true := by
  refine ⟨rfl, ?_⟩
  intro ev1 ev2 min_size l h
  have e := scan_ok_eq h
  subst e
  intro i hi
  rw [mem_sort_by_size, List.mem_append] at hi
  rcases hi with h1 | h2
  · rw [show (include_flags true true).1 = false from rfl,
      pass1Items_of_not_include] at h1
    simp at h1
  · rw [if_pos (show (include_flags true true).2 = true from rfl)] at h2
    obtain ⟨q, hmem, -, rfl⟩ := mem_pass2Items.mp h2
    rfl

theorem both_flags_dirs_only_wins_witness :
    include_flags true true = (false, true) ∧
    ∀ i ∈ sampleSortedDirs, i.is_directory = true :=
  ⟨both_flags_dirs_only_wins.1,
   both_flags_dirs_only_wins.2 sampleEv1 sampleEv2 0 sampleSortedDirs rfl⟩

end Sizr
